import Mathlib

set_option maxHeartbeats 1000000

/-
  Verification development for the `unstructured` partitioning library
  (hierarchy assignment over flat element sequences, XML leaf extraction and
  partitioning, and title-based chunking).

  The XML partitioner (`unstructured/partition/xml.py`) is embedded from its
  source.  The hierarchy assigner `set_element_hierarchy`, the helper
  `exactly_one`, `get_last_modified_date` and the chunker `chunk_by_title` are
  exercised by the repository's tests but their defining modules are not part
  of the source tree available here; those are modelled from the specification,
  constrained so that every executable assertion of the repository's tests
  (`test_metadata.py`, `test_md.py`) holds of the model.
-/

/- ===================================================================
   Part 1: the hierarchy assigner (spec-modelled)
   =================================================================== -/

/-- Element record as consumed by the hierarchy assigner: a stable unique id,
a category name, an optional explicit nesting depth (`metadata.category_depth`)
and the `metadata.parent_id` slot filled in by the assigner. -/
structure HElement where
  id : Nat
  category : String
  category_depth : Option Nat
  parent_id : Option Nat
deriving DecidableEq, Repr

/-- A ruleset maps a parent-capable category name to the ordered list of
category names it may take as children (direction fixed by the repository's
custom-ruleset test, where `Header -> [Title, Text]` makes Title a child of
Header). -/
abbrev RuleSet := List (String × List String)

/-- The key categories of a ruleset (categories that may act as parents). -/
def rsKeys (rs : RuleSet) : List String := rs.map Prod.fst

/-- All categories appearing in some value list of a ruleset (categories that
may be assigned a parent). -/
def rsValues (rs : RuleSet) : List String := (rs.map Prod.snd).flatten

/-- Effective depth of an element: explicit `category_depth` if present, else 0. -/
def effectiveDepth (e : HElement) : Nat := e.category_depth.getD 0

/-- Modelled from the spec: whether the stack entry `top` may be the parent of
the current element `cur`.  Two elements of the same category are
parent/child only when the candidate parent is at a strictly lower effective
depth (equal category and depth are always siblings); elements of different
categories pair when the candidate's category is a ruleset key and the current
category appears in the ruleset's value lists.  Both forms require the current
category to be parent-assignable, i.e. listed in some value list. -/
def canParent (rs : RuleSet) (top cur : HElement) : Bool :=
  if top.category = cur.category then
    decide (effectiveDepth top < effectiveDepth cur) && decide (cur.category ∈ rsValues rs)
  else
    decide (top.category ∈ rsKeys rs) && decide (cur.category ∈ rsValues rs)

/-- Modelled from the spec: an element participates in the hierarchy (may be
pushed on the ancestor stack) when its category occurs in the ruleset at all,
as a key or inside a value list; categories wholly absent from the ruleset are
structurally inert. -/
def participates (rs : RuleSet) (e : HElement) : Bool :=
  decide (e.category ∈ rsKeys rs) || decide (e.category ∈ rsValues rs)

/-- Pop stack entries (top first) until one remains that can parent `cur`,
or the stack is exhausted. -/
def popStack (rs : RuleSet) (cur : HElement) : List HElement → List HElement
  | [] => []
  | top :: rest => if canParent rs top cur then top :: rest else popStack rs cur rest

/-- The annotated version of `e` processed against `stack`: its `parent_id`
becomes the id of the nearest valid ancestor, none if the stack empties. -/
def annotate (rs : RuleSet) (stack : List HElement) (e : HElement) : HElement :=
  { e with parent_id := (popStack rs e stack).head?.map HElement.id }

/-- Modelled from the spec: single pass over the element sequence maintaining a
stack of open ancestors (head = deepest).  A participating element pops the
stack to its nearest valid ancestor, takes that ancestor's id as `parent_id`
(none if the stack empties), and is pushed; an inert element is annotated with
no parent and leaves the stack untouched. -/
def hierGo (rs : RuleSet) : List HElement → List HElement → List HElement
  | _, [] => []
  | stack, e :: es =>
    if participates rs e then
      annotate rs stack e :: hierGo rs (annotate rs stack e :: popStack rs e stack) es
    else
      { e with parent_id := none } :: hierGo rs stack es

/-- Modelled from the spec: the built-in default ruleset.  NarrativeText,
FigureCaption, ListItem and Text attach to the nearest preceding Title or
Header; nested ListItems attach through the same-category depth rule; Title
and Header appear in no value list and so never receive a parent under this
ruleset; CheckBox is absent entirely and is structurally inert. -/
def defaultRuleSet : RuleSet :=
  [("Title", ["NarrativeText", "FigureCaption", "ListItem", "Text"]),
   ("Header", ["NarrativeText", "FigureCaption", "ListItem", "Text"])]

/-- Modelled from the spec: `set_element_hierarchy` annotates each element of
the sequence with a `parent_id` drawn from earlier elements, per the ruleset. -/
def set_element_hierarchy (elements : List HElement) (ruleset : RuleSet) : List HElement :=
  hierGo ruleset [] elements

/-- The element sequence of the repository's default-ruleset hierarchy test. -/
def defaultTestSeq : List HElement :=
  [⟨0, "Title", none, none⟩,
   ⟨1, "NarrativeText", none, none⟩,
   ⟨2, "FigureCaption", none, none⟩,
   ⟨3, "ListItem", none, none⟩,
   ⟨4, "ListItem", some 1, none⟩,
   ⟨5, "ListItem", some 1, none⟩,
   ⟨6, "ListItem", none, none⟩,
   ⟨7, "CheckBox", none, none⟩,
   ⟨8, "Title", none, none⟩,
   ⟨9, "ListItem", none, none⟩,
   ⟨10, "ListItem", none, none⟩,
   ⟨11, "Text", none, none⟩]

/-- The element sequence of the repository's custom-ruleset hierarchy test. -/
def customTestSeq : List HElement :=
  [⟨0, "Header", none, none⟩,
   ⟨1, "Title", none, none⟩,
   ⟨2, "NarrativeText", none, none⟩,
   ⟨3, "Text", none, none⟩,
   ⟨4, "Title", none, none⟩,
   ⟨5, "FigureCaption", none, none⟩]

/-- The custom ruleset of `test_set_element_hierarchy_custom_rule_set`. -/
def customRuleSet : RuleSet :=
  [("Header", ["Title", "Text"]),
   ("Title", ["NarrativeText", "UncategorizedText", "FigureCaption"])]

example :
    (set_element_hierarchy defaultTestSeq defaultRuleSet).map HElement.parent_id =
      [none, some 0, some 0, some 0, some 3, some 3, some 0, none, none,
       some 8, some 8, some 8] := by decide

example :
    (set_element_hierarchy customTestSeq customRuleSet).map HElement.parent_id =
      [none, some 0, some 1, some 1, some 0, some 4] := by decide

/- ===================================================================
   Part 2: XML leaf extraction (src/unstructured/partition/xml.py)
   =================================================================== -/

/-- Whitespace as stripped by Python's `str.strip()` (ASCII subset). -/
def pyIsSpace (c : Char) : Bool :=
  c = ' ' || c = '\t' || c = '\n' || c = '\r' || c = '\x0b' || c = '\x0c'

/-- Truthiness of `s.strip()` in Python: `s` contains a non-whitespace char. -/
def hasNonSpace (s : String) : Bool := s.data.any (fun c => !pyIsSpace c)

/-- Python's `s.strip()`: `s` with leading and trailing whitespace removed. -/
def pyStrip (s : String) : String :=
  ⟨((s.data.dropWhile pyIsSpace).reverse.dropWhile pyIsSpace).reverse⟩

/- An XML element as seen by `lxml.etree`: its `.text` (the character data
between the element's start tag and its first child, `None` when absent) and
its children.  Tail text is not read by the extractor and is not modelled. -/
mutual
inductive XmlNode : Type where
  | node : Option String → XmlForest → XmlNode
inductive XmlForest : Type where
  | nil : XmlForest
  | cons : XmlNode → XmlForest → XmlForest
end

/-- The strings a single element contributes on its `end` event:
`element.text` itself (untrimmed!) when it is non-`None` and its `.strip()` is
truthy, i.e. the text contains a non-whitespace character; nothing otherwise. -/
def ownYield : Option String → List String
  | some s => if hasNonSpace s then [s] else []
  | none => []

/- Embedding of `_get_leaf_elements` without an `xml_path`: `iterparse`
delivers `end` events in post-order (all of a node's children end before the
node itself), and on each `end` event the element's own text is yielded when
non-whitespace.  The `element_stack` bookkeeping and the `element.clear()`
calls of the source only manage memory and do not affect the yielded values. -/
mutual
def yieldTextsNode : XmlNode → List String
  | .node t cs => yieldTextsForest cs ++ ownYield t
termination_by structural n => n
def yieldTextsForest : XmlForest → List String
  | .nil => []
  | .cons c cs => yieldTextsNode c ++ yieldTextsForest cs
termination_by structural f => f
end

/- Stated from the spec's words, for comparison with `yieldTextsNode`: the
texts of the document's leaf elements (elements with no children) in document
order, keeping only texts with a non-whitespace character. -/
mutual
def leafTextsNode : XmlNode → List String
  | .node t .nil => ownYield t
  | .node _ (.cons c cs) => leafTextsForest (.cons c cs)
termination_by structural n => n
def leafTextsForest : XmlForest → List String
  | .nil => []
  | .cons c cs => leafTextsNode c ++ leafTextsForest cs
termination_by structural f => f
end

/-- Whether an optional text is absent or all-whitespace. -/
def wsOnly : Option String → Bool
  | some s => !hasNonSpace s
  | none => true

/- A document carries text only at its leaves when every element that has
children has an absent or all-whitespace `.text`. -/
mutual
def textsAtLeavesOnlyNode : XmlNode → Bool
  | .node _ .nil => true
  | .node t (.cons c cs) => wsOnly t && textsAtLeavesOnlyForest (.cons c cs)
termination_by structural n => n
def textsAtLeavesOnlyForest : XmlForest → Bool
  | .nil => true
  | .cons c cs => textsAtLeavesOnlyNode c && textsAtLeavesOnlyForest cs
termination_by structural f => f
end

example :
    yieldTextsNode (.node (some " x ") (.cons (.node (some "world") .nil) .nil)) =
      ["world", " x "] := by
  simp only [yieldTextsNode, yieldTextsForest, ownYield]
  decide

example :
    leafTextsNode (.node (some " x ") (.cons (.node (some "world") .nil) .nil)) =
      ["world"] := by
  simp only [leafTextsNode, leafTextsForest, ownYield]
  decide

/- ===================================================================
   Part 3: partition_xml (src/unstructured/partition/xml.py)
   =================================================================== -/

/-- Failure modes of the partitioning entry points.  `inputSelection` is the
error `exactly_one` raises; `fileNotFound` stands for the OS error on a
missing path; `parseError` for malformed markup; `otherError` for the
remaining runtime failures of the source (e.g. the `assert text is not None`
fall-through reached when the only supplied source is an empty filename). -/
inductive PartitionError : Type where
  | inputSelection : PartitionError
  | fileNotFound : PartitionError
  | parseError : PartitionError
  | otherError : PartitionError
deriving DecidableEq, Repr

/-- Sparse element metadata: the fields relevant to the claims. -/
structure PMeta where
  filename : Option String
  last_modified : Option String
deriving DecidableEq, Repr

/-- An output element of `partition_xml`: category, text, metadata. -/
structure PElement where
  category : String
  text : String
  metadata : PMeta
deriving DecidableEq, Repr

/-- Count of supplied (non-`None`) optional arguments, 1 when present. -/
def optCount (o : Option String) : Nat :=
  match o with
  | some _ => 1
  | none => 0

/-- Modelled from the spec: `exactly_one` accepts the argument set only when
exactly one of the optional sources is supplied (is not `None`). -/
def exactly_one (filename file text : Option String) : Bool :=
  optCount filename + optCount file + optCount text == 1

/-- Python `a or b` on optional strings: `b` when `a` is `None` or empty. -/
def pyOrStr (a b : Option String) : Option String :=
  match a with
  | some s => if s.isEmpty then b else some s
  | none => b

/-- Resolution of the raw document content from `file` or `text`, mirroring
the source's `elif file: ... else: ...` chain (a supplied stream object is
always truthy; the final branch requires `text` to be non-`None`). -/
def readRawNoFn (file text : Option String) : Except PartitionError String :=
  match file with
  | some c => Except.ok c
  | none =>
    match text with
    | some t => Except.ok t
    | none => Except.error PartitionError.otherError

/-- Resolution of the raw document content from the three sources, mirroring
the source's `if filename: ... elif file: ... else: ...` chain, where
`filename` is truthy only when non-empty; reading a path absent from the
file system `fsContent` fails. -/
def readRaw (fsContent : String → Option String) (fn file text : Option String) :
    Except PartitionError String :=
  match fn with
  | some f =>
    if f.isEmpty then readRawNoFn file text
    else
      match fsContent f with
      | some r => Except.ok r
      | none => Except.error PartitionError.fileNotFound
  | none => readRawNoFn file text

/-- The `last_modification_date` local of `partition_xml`:
`get_last_modified_date(filename) if filename else None`, with
`get_last_modified_date` (modelled from the spec) abstracted as the map
`fsLastMod` returning the filesystem timestamp, or `None` for a missing path. -/
def lastModificationDate (fsLastMod : String → Option String) (fn : Option String) :
    Option String :=
  match fn with
  | some f => if f.isEmpty then none else fsLastMod f
  | none => none

/-- The metadata record `partition_xml` builds before producing elements:
with `include_metadata`, filename is `metadata_filename or filename` and
last-modified is `metadata_last_modified or last_modification_date`
(Python `or`); without it, an empty metadata record. -/
def partitionMetadata (fsLastMod : String → Option String)
    (fn metadata_filename metadata_last_modified : Option String)
    (include_metadata : Bool) : PMeta :=
  if include_metadata then
    { filename := pyOrStr metadata_filename fn,
      last_modified := pyOrStr metadata_last_modified (lastModificationDate fsLastMod fn) }
  else
    { filename := none, last_modified := none }

/-- Embedding of `get_leaf_elements`: after `exactly_one`, the document named
by the single source is parsed (`parse` abstracts `lxml` parsing; `none` is a
parse failure) and its texts are yielded; with an `xml_path`, the compiled
XPath (abstracted as the selector `sel`) picks the elements whose own texts
are yielded instead. -/
def get_leaf_elements (fsContent : String → Option String)
    (parse : String → Option XmlNode)
    (fn file text : Option String)
    (xml_path : Option (XmlNode → List XmlNode)) :
    Except PartitionError (List String) :=
  if !exactly_one fn file text then Except.error PartitionError.inputSelection
  else
    match readRaw fsContent fn file text with
    | Except.error e => Except.error e
    | Except.ok raw =>
      match parse raw with
      | none => Except.error PartitionError.parseError
      | some doc =>
        match xml_path with
        | none => Except.ok (yieldTextsNode doc)
        | some sel => Except.ok ((sel doc).flatMap ownYieldNode)
where
  /-- Own-text yield of a matched element, as in the `xml_path` branch. -/
  ownYieldNode : XmlNode → List String
  | XmlNode.node t _ => ownYield t

/-- Embedding of `partition_xml` up to (and excluding) `apply_lang_metadata`,
which is an external, out-of-scope collaborator that annotates languages and
leaves the other metadata fields and the element list structure unchanged.
`categorize` abstracts the external `element_from_text` heuristic, giving the
category of an element built from a leaf text.  With `xml_keep_tags` the raw
document becomes a single `Text` element; otherwise each truthy yielded leaf
text becomes one element carrying a deep copy of the shared metadata. -/
def partition_xml (fsContent fsLastMod : String → Option String)
    (parse : String → Option XmlNode) (categorize : String → String)
    (fn file text : Option String) (xml_keep_tags : Bool)
    (xml_path : Option (XmlNode → List XmlNode))
    (metadata_filename : Option String) (include_metadata : Bool)
    (metadata_last_modified : Option String) :
    Except PartitionError (List PElement) :=
  if !exactly_one fn file text then Except.error PartitionError.inputSelection
  else
    let metadata := partitionMetadata fsLastMod fn metadata_filename
      metadata_last_modified include_metadata
    if xml_keep_tags then
      match readRaw fsContent fn file text with
      | Except.error e => Except.error e
      | Except.ok raw => Except.ok [{ category := "Text", text := raw, metadata := metadata }]
    else
      match get_leaf_elements fsContent parse fn file text xml_path with
      | Except.error e => Except.error e
      | Except.ok leaves =>
        Except.ok ((leaves.filter (fun s => !s.isEmpty)).map
          (fun s => { category := categorize s, text := s, metadata := metadata }))

/- ===================================================================
   Part 4: title chunking (spec-modelled)
   =================================================================== -/

/-- An element as consumed and produced by the chunker: category, text and the
list-valued `languages` metadata field (representative of the list-valued
fields that merging unions and deduplicates). -/
structure CElement where
  category : String
  text : String
  languages : List String
deriving DecidableEq, Repr

/-- Chunking thresholds: hard cap, soft cap and small-chunk combination cap. -/
structure ChunkOpts where
  max_characters : Nat
  new_after_n_chars : Nat
  combine_text_under_n_chars : Nat
deriving DecidableEq, Repr

/-- Modelled from the spec: the default thresholds (the spec leaves the
numbers open; all three coincide by default). -/
def defaultChunkOpts : ChunkOpts :=
  { max_characters := 500, new_after_n_chars := 500, combine_text_under_n_chars := 500 }

/-- The separator placed between the texts of elements grouped in one chunk. -/
def chunkSep : String := "\n\n"

/-- Concatenation of the texts of a chunk's constituent elements. -/
def joinTexts : List String → String
  | [] => ""
  | [t] => t
  | t :: t2 :: ts => t ++ chunkSep ++ joinTexts (t2 :: ts)

/-- Current combined text length of an open chunk. -/
def groupLen (g : List CElement) : Nat := (joinTexts (g.map CElement.text)).length

/-- Modelled from the spec: whether element `e` may be appended to the open
chunk `g` — `e` is not a Title (a Title always starts a new chunk), the chunk
has not yet reached the soft cap, and appending stays within the hard cap
(an element whose own text exceeds the hard cap therefore never joins an open
chunk and is emitted as its own chunk). -/
def canAppend (opts : ChunkOpts) (g : List CElement) (e : CElement) : Bool :=
  (!(e.category = "Title" : Bool)) &&
    decide (groupLen g < opts.new_after_n_chars) &&
    decide (groupLen g + chunkSep.length + e.text.length ≤ opts.max_characters)

/-- First pass of the chunker: split the element sequence into maximal runs,
extending the open run `cur` while `canAppend` allows. -/
def splitRuns (opts : ChunkOpts) (cur : List CElement) : List CElement → List (List CElement)
  | [] => [cur]
  | e :: es =>
    if canAppend opts cur e then splitRuns opts (cur ++ [e]) es
    else cur :: splitRuns opts [e] es

/-- A chunk built from a run of elements: combined text, metadata of the run
with the list-valued `languages` field unioned in encounter order and
deduplicated. -/
def mkChunk (g : List CElement) : CElement :=
  { category := "CompositeElement",
    text := joinTexts (g.map CElement.text),
    languages := ((g.map CElement.languages).flatten).dedup }

/-- Merge of two adjacent chunks in the combine pass. -/
def mergeChunks (c1 c2 : CElement) : CElement :=
  { category := "CompositeElement",
    text := c1.text ++ chunkSep ++ c2.text,
    languages := (c1.languages ++ c2.languages).dedup }

/-- Whether the combine pass merges chunk `c2` into the preceding chunk `c1`:
`c1` is smaller than the combination cap and the merge stays within the hard
cap. -/
def canCombine (opts : ChunkOpts) (c1 c2 : CElement) : Bool :=
  decide (c1.text.length < opts.combine_text_under_n_chars) &&
    decide (c1.text.length + chunkSep.length + c2.text.length ≤ opts.max_characters)

/-- Second pass of the chunker: greedily merge forward adjacent undersized
chunks while the merge does not exceed the hard cap. -/
def combineGo (opts : ChunkOpts) (acc : CElement) : List CElement → List CElement
  | [] => [acc]
  | c :: cs =>
    if canCombine opts acc c then combineGo opts (mergeChunks acc c) cs
    else acc :: combineGo opts c cs

/-- The combine pass over the initial chunk list. -/
def combinePass (opts : ChunkOpts) : List CElement → List CElement
  | [] => []
  | c :: cs => combineGo opts c cs

/-- Modelled from the spec: `chunk_by_title` groups the element sequence into
title-bounded, size-bounded runs, then merges adjacent undersized chunks. -/
def chunk_by_title (opts : ChunkOpts) : List CElement → List CElement
  | [] => []
  | e :: es => combinePass opts ((splitRuns opts [e] es).map mkChunk)

example :
    chunk_by_title defaultChunkOpts
      [⟨"Title", "T1", ["eng"]⟩, ⟨"NarrativeText", "hello", ["eng"]⟩,
       ⟨"Title", "T2", []⟩, ⟨"Text", "world", ["spa"]⟩] =
      [⟨"CompositeElement", "T1\n\nhello\n\nT2\n\nworld", ["eng", "spa"]⟩] := by decide

/- ===================================================================
   Part 5: lemmas about the hierarchy assigner
   =================================================================== -/

lemma canParent_annotate_left (rs : RuleSet) (stack : List HElement) (t c : HElement) :
    canParent rs (annotate rs stack t) c = canParent rs t c := rfl

lemma canParent_set_right (rs : RuleSet) (t c : HElement) (q : Option Nat) :
    canParent rs t { c with parent_id := q } = canParent rs t c := rfl

lemma annotate_id (rs : RuleSet) (stack : List HElement) (e : HElement) :
    (annotate rs stack e).id = e.id := rfl

lemma annotate_category (rs : RuleSet) (stack : List HElement) (e : HElement) :
    (annotate rs stack e).category = e.category := rfl

lemma annotate_depth (rs : RuleSet) (stack : List HElement) (e : HElement) :
    (annotate rs stack e).category_depth = e.category_depth := rfl

lemma canParent_value (rs : RuleSet) (t c : HElement) (h : canParent rs t c = true) :
    c.category ∈ rsValues rs := by
  unfold canParent at h
  split at h <;> simp only [Bool.and_eq_true, decide_eq_true_eq] at h <;> exact h.2

lemma canParent_key_or_value (rs : RuleSet) (t c : HElement) (h : canParent rs t c = true) :
    t.category ∈ rsKeys rs ∨ t.category ∈ rsValues rs := by
  unfold canParent at h
  split at h
  · next heq =>
    simp only [Bool.and_eq_true, decide_eq_true_eq] at h
    right
    rw [heq]
    exact h.2
  · simp only [Bool.and_eq_true, decide_eq_true_eq] at h
    left
    exact h.1

lemma canParent_false_of_not_value (rs : RuleSet) (t c : HElement)
    (h : c.category ∈ rsValues rs → False) : canParent rs t c = false := by
  have hd : decide (c.category ∈ rsValues rs) = false := decide_eq_false h
  unfold canParent
  split <;> simp [hd]

lemma popStack_mem (rs : RuleSet) (cur : HElement) :
    ∀ (stack : List HElement) (s : HElement), s ∈ popStack rs cur stack → s ∈ stack := by
  intro stack
  induction stack with
  | nil => intro s h; simp [popStack] at h
  | cons top rest ih =>
    intro s h
    by_cases hc : canParent rs top cur = true
    · simpa [popStack, hc] using h
    · simp only [popStack, hc, Bool.false_eq_true, if_false] at h
      exact List.mem_cons_of_mem top (ih s h)

lemma popStack_head_canParent (rs : RuleSet) (cur : HElement) :
    ∀ (stack : List HElement) (Y : HElement) (rest : List HElement),
    popStack rs cur stack = Y :: rest → canParent rs Y cur = true := by
  intro stack
  induction stack with
  | nil => intro Y rest h; simp [popStack] at h
  | cons top tl ih =>
    intro Y rest h
    by_cases hc : canParent rs top cur = true
    · have heq : popStack rs cur (top :: tl) = top :: tl := by simp [popStack, hc]
      rw [heq] at h
      injection h with h1 h2
      rw [← h1]
      exact hc
    · simp only [popStack, hc, Bool.false_eq_true, if_false] at h
      exact ih Y rest h

lemma popStack_nil_of_not_value (rs : RuleSet) (cur : HElement)
    (h : cur.category ∈ rsValues rs → False) :
    ∀ (stack : List HElement), popStack rs cur stack = [] := by
  intro stack
  induction stack with
  | nil => rfl
  | cons top tl ih =>
    simp only [popStack, canParent_false_of_not_value rs top cur h, Bool.false_eq_true,
      if_false]
    exact ih

lemma get?_mem_of_get? {α : Type} : ∀ (l : List α) (n : Nat) (a : α), l.get? n = some a → a ∈ l := by
  intro l
  induction l with
  | nil => intro n a h; simp [List.get?] at h
  | cons x t ih =>
    intro n a h
    cases n with
    | zero =>
      simp only [List.get?] at h
      exact (Option.some.injEq .. ▸ h) ▸ List.mem_cons_self x t
    | succ m =>
      simp only [List.get?] at h
      exact List.mem_cons_of_mem x (ih m a h)

lemma hierGo_shape (rs : RuleSet) (xs : List HElement) :
    ∀ (stack : List HElement) (j : Nat) (e' : HElement),
    (hierGo rs stack xs).get? j = some e' →
    ∃ e0, xs.get? j = some e0 ∧ e'.id = e0.id ∧ e'.category = e0.category ∧
      e'.category_depth = e0.category_depth := by
  induction xs with
  | nil =>
    intro stack j e' h
    simp [hierGo] at h
  | cons e es ih =>
    intro stack j e' h
    by_cases hp : participates rs e = true
    · simp only [hierGo, hp, if_true] at h
      cases j with
      | zero =>
        simp only [List.get?] at h
        injection h with h0
        subst h0
        exact ⟨e, rfl, rfl, rfl, rfl⟩
      | succ n =>
        simp only [List.get?] at h
        obtain ⟨e0, h0, hids, hcat, hdep⟩ := ih _ n e' h
        exact ⟨e0, h0, hids, hcat, hdep⟩
    · simp only [hierGo, hp, Bool.false_eq_true, if_false] at h
      cases j with
      | zero =>
        simp only [List.get?] at h
        injection h with h0
        subst h0
        exact ⟨e, rfl, rfl, rfl, rfl⟩
      | succ n =>
        simp only [List.get?] at h
        obtain ⟨e0, h0, hids, hcat, hdep⟩ := ih _ n e' h
        exact ⟨e0, h0, hids, hcat, hdep⟩

lemma hierGo_parent_origin (rs : RuleSet) (xs : List HElement) :
    ∀ (stack : List HElement) (j : Nat) (e' : HElement) (p : Nat),
    (hierGo rs stack xs).get? j = some e' → e'.parent_id = some p →
    ∃ Y : HElement, Y.id = p ∧ canParent rs Y e' = true ∧
      (Y ∈ stack ∨ ∃ i e0, i < j ∧ xs.get? i = some e0 ∧ Y.id = e0.id ∧
        Y.category = e0.category ∧ Y.category_depth = e0.category_depth) := by
  induction xs with
  | nil =>
    intro stack j e' p h _
    simp [hierGo] at h
  | cons e es ih =>
    intro stack j e' p h hpar
    by_cases hp : participates rs e = true
    · simp only [hierGo, hp, if_true] at h
      cases j with
      | zero =>
        simp only [List.get?] at h
        injection h with h0
        subst h0
        have hpar' : ((popStack rs e stack).head?.map HElement.id) = some p := hpar
        rw [Option.map_eq_some'] at hpar'
        obtain ⟨Y, hY, hYid⟩ := hpar'
        cases hps : popStack rs e stack with
        | nil => rw [hps] at hY; simp at hY
        | cons Z rest =>
          rw [hps] at hY
          simp only [List.head?] at hY
          injection hY with hZY
          have hcp : canParent rs Z e = true := popStack_head_canParent rs e stack Z rest hps
          have hmem : Z ∈ stack := popStack_mem rs e stack Z (hps ▸ List.mem_cons_self Z rest)
          rw [hZY] at hcp hmem
          refine ⟨Y, hYid, ?_, Or.inl hmem⟩
          rw [canParent_set_right]
          exact hcp
      | succ n =>
        simp only [List.get?] at h
        obtain ⟨Y, hYid, hcp, hloc⟩ := ih _ n e' p h hpar
        refine ⟨Y, hYid, hcp, ?_⟩
        rcases hloc with hst | ⟨i, e0, hij, hget, hid, hcat, hdep⟩
        · rcases List.mem_cons.mp hst with heq | hmem
          · subst heq
            exact Or.inr ⟨0, e, Nat.succ_pos n, rfl, rfl, rfl, rfl⟩
          · exact Or.inl (popStack_mem rs e stack Y hmem)
        · exact Or.inr ⟨i + 1, e0, Nat.succ_lt_succ hij, hget, hid, hcat, hdep⟩
    · simp only [hierGo, hp, Bool.false_eq_true, if_false] at h
      cases j with
      | zero =>
        simp only [List.get?] at h
        injection h with h0
        subst h0
        simp at hpar
      | succ n =>
        simp only [List.get?] at h
        obtain ⟨Y, hYid, hcp, hloc⟩ := ih _ n e' p h hpar
        refine ⟨Y, hYid, hcp, ?_⟩
        rcases hloc with hst | ⟨i, e0, hij, hget, hid, hcat, hdep⟩
        · exact Or.inl hst
        · exact Or.inr ⟨i + 1, e0, Nat.succ_lt_succ hij, hget, hid, hcat, hdep⟩

lemma hierGo_parent_none (rs : RuleSet) (xs : List HElement) :
    ∀ (stack : List HElement) (j : Nat) (e' : HElement),
    (hierGo rs stack xs).get? j = some e' → (e'.category ∈ rsValues rs → False) →
    e'.parent_id = none := by
  induction xs with
  | nil =>
    intro stack j e' h _
    simp [hierGo] at h
  | cons e es ih =>
    intro stack j e' h hnv
    by_cases hp : participates rs e = true
    · simp only [hierGo, hp, if_true] at h
      cases j with
      | zero =>
        simp only [List.get?] at h
        injection h with h0
        subst h0
        have hnv' : e.category ∈ rsValues rs → False := hnv
        show ((popStack rs e stack).head?.map HElement.id) = none
        rw [popStack_nil_of_not_value rs e hnv' stack]
        rfl
      | succ n =>
        simp only [List.get?] at h
        exact ih _ n e' h hnv
    · simp only [hierGo, hp, Bool.false_eq_true, if_false] at h
      cases j with
      | zero =>
        simp only [List.get?] at h
        injection h with h0
        subst h0
        rfl
      | succ n =>
        simp only [List.get?] at h
        exact ih _ n e' h hnv

lemma hierGo_succ_parent (rs : RuleSet) (xs : List HElement) :
    ∀ (stack : List HElement) (i : Nat) (a b : HElement),
    xs.get? i = some a → xs.get? (i + 1) = some b →
    participates rs a = true → canParent rs a b = true →
    ∃ e', (hierGo rs stack xs).get? (i + 1) = some e' ∧ e'.parent_id = some a.id := by
  induction xs with
  | nil =>
    intro stack i a b ha _ _ _
    simp [List.get?] at ha
  | cons x t ih =>
    intro stack i a b ha hb hpa hcab
    cases i with
    | zero =>
      simp only [List.get?] at ha hb
      injection ha with hxa
      subst hxa
      cases t with
      | nil => simp [List.get?] at hb
      | cons b' t2 =>
        simp only [List.get?] at hb
        injection hb with hbb
        subst hbb
        have hpb : participates rs b' = true := by
          unfold participates
          have hv := canParent_value rs x b' hcab
          simp [hv]
        simp only [hierGo, hpa, if_true]
        simp only [List.get?]
        simp only [hierGo, hpb, if_true]
        refine ⟨_, rfl, ?_⟩
        show ((popStack rs b'
          (annotate rs stack x :: popStack rs x stack)).head?.map HElement.id) = some x.id
        have hc' : canParent rs (annotate rs stack x) b' = true := by
          rw [canParent_annotate_left]
          exact hcab
        simp only [popStack, hc', if_true]
        rfl
    | succ n =>
      simp only [List.get?] at ha hb
      by_cases hp : participates rs x = true
      · simp only [hierGo, hp, if_true, List.get?]
        exact ih _ n a b ha hb hpa hcab
      · simp only [hierGo, hp, Bool.false_eq_true, if_false, List.get?]
        exact ih _ n a b ha hb hpa hcab

lemma nodup_ids_get?_ne (xs : List HElement) :
    ∀ (i j : Nat) (a b : HElement), (xs.map HElement.id).Nodup →
    i < j → xs.get? i = some a → xs.get? j = some b → a.id = b.id → False := by
  induction xs with
  | nil =>
    intro i j a b _ _ ha _ _
    simp [List.get?] at ha
  | cons x t ih =>
    intro i j a b hnd hij ha hb hab
    rw [List.map_cons, List.nodup_cons] at hnd
    cases i with
    | zero =>
      simp only [List.get?] at ha
      injection ha with hxa
      subst hxa
      cases j with
      | zero => exact absurd hij (Nat.lt_irrefl 0)
      | succ m =>
        simp only [List.get?] at hb
        have hbmem : b ∈ t := get?_mem_of_get? t m b hb
        exact hnd.1 (hab ▸ List.mem_map_of_mem HElement.id hbmem)
    | succ n =>
      cases j with
      | zero => exact absurd hij (Nat.not_lt_zero _ )
      | succ m =>
        simp only [List.get?] at ha hb
        exact ih n m a b hnd.2 (Nat.lt_of_succ_lt_succ hij) ha hb hab

lemma nodup_ids_get?_inj (xs : List HElement) (i j : Nat) (a b : HElement)
    (hnd : (xs.map HElement.id).Nodup)
    (ha : xs.get? i = some a) (hb : xs.get? j = some b) (hab : a.id = b.id) : i = j := by
  rcases Nat.lt_trichotomy i j with h | h | h
  · exact absurd (nodup_ids_get?_ne xs i j a b hnd h ha hb hab) (fun f => f)
  · exact h
  · exact absurd (nodup_ids_get?_ne xs j i b a hnd h hb ha hab.symm) (fun f => f)

/- ===================================================================
   Part 6: claims about the hierarchy assigner
   =================================================================== -/

/-- C1: for every element sequence (with pairwise-distinct element ids, as the
data model guarantees) and every ruleset, an element's assigned `parent_id`,
when set, is the id of an element strictly earlier in the sequence — never the
element itself and never a later element — so the parent relation only points
backwards and forms a forest with no cycles. -/
theorem thm_C1 (ruleset : RuleSet) (elements : List HElement)
    (hnd : (elements.map HElement.id).Nodup)
    (j : Nat) (e' : HElement)
    (hj : (set_element_hierarchy elements ruleset).get? j = some e')
    (p : Nat) (hp : e'.parent_id = some p) :
    (∃ i e0, i < j ∧ elements.get? i = some e0 ∧ e0.id = p) ∧ p ≠ e'.id := by
  obtain ⟨Y, hYid, hcp, hloc⟩ := hierGo_parent_origin ruleset elements [] j e' p hj hp
  rcases hloc with hst | ⟨i, e0, hij, hget, hid, hcat, hdep⟩
  · simp at hst
  · constructor
    · exact ⟨i, e0, hij, hget, by rw [← hid, hYid]⟩
    · intro hpe
      obtain ⟨ej0, hj0, hjid, _, _⟩ := hierGo_shape ruleset elements [] j e' hj
      have h1 : e0.id = ej0.id := by rw [← hid, hYid, hpe, hjid]
      exact nodup_ids_get?_ne elements i j e0 ej0 hnd hij hget hj0 h1

theorem thm_C1_witness :
    (∃ i e0, i < 1 ∧ defaultTestSeq.get? i = some e0 ∧ e0.id = 0) ∧
      0 ≠ (⟨1, "NarrativeText", none, some 0⟩ : HElement).id :=
  thm_C1 defaultRuleSet defaultTestSeq (by decide) 1 ⟨1, "NarrativeText", none, some 0⟩
    (by decide) 0 (by decide)

/-- C2: under the default ruleset every element of category Title or Header
ends with `parent_id` unset, whatever the input sequence: neither category
occurs in a value list of the default ruleset, so no stack entry can ever be
accepted as its parent. -/
theorem thm_C2 (elements : List HElement) (j : Nat) (e' : HElement)
    (hj : (set_element_hierarchy elements defaultRuleSet).get? j = some e')
    (hcat : e'.category = "Title" ∨ e'.category = "Header") :
    e'.parent_id = none := by
  apply hierGo_parent_none defaultRuleSet elements [] j e' hj
  intro hv
  rcases hcat with h | h <;> rw [h] at hv
  · exact absurd hv (by decide)
  · exact absurd hv (by decide)

theorem thm_C2_witness : (⟨8, "Title", none, none⟩ : HElement).parent_id = none :=
  thm_C2 defaultTestSeq 8 ⟨8, "Title", none, none⟩ (by decide) (Or.inl (by decide))

/-- C3 counterexample: the claim says an element whose category is absent from
the ruleset's keys is never assigned a `parent_id`, yet under the default
ruleset (keys Title and Header) a NarrativeText following a Title — exactly
the configuration the repository's own test asserts — is assigned the Title's
id as its parent. -/
theorem thm_C3_cex :
    (set_element_hierarchy [⟨0, "Title", none, none⟩, ⟨1, "NarrativeText", none, none⟩]
        defaultRuleSet).map HElement.parent_id = [none, some 0] ∧
      ("NarrativeText" ∈ rsKeys defaultRuleSet → False) := by decide

/-- C3 (amended): an element whose category appears in none of the ruleset's
value lists is never assigned a `parent_id`; an element whose category is
absent from both the keys and the value lists of the ruleset (e.g. CheckBox
under the default ruleset) is in addition never used as the parent of any
later element; and in the end-to-end sequence the CheckBox element ends with
`parent_id` unset. -/
theorem thm_C3 :
    (∀ (ruleset : RuleSet) (elements : List HElement) (j : Nat) (e' : HElement),
      (set_element_hierarchy elements ruleset).get? j = some e' →
      (e'.category ∈ rsValues ruleset → False) → e'.parent_id = none) ∧
    (∀ (ruleset : RuleSet) (elements : List HElement),
      (elements.map HElement.id).Nodup →
      ∀ (i j : Nat) (ei ej : HElement),
      (set_element_hierarchy elements ruleset).get? i = some ei →
      (set_element_hierarchy elements ruleset).get? j = some ej →
      (ei.category ∈ rsKeys ruleset → False) →
      (ei.category ∈ rsValues ruleset → False) →
      ej.parent_id ≠ some ei.id) ∧
    ((set_element_hierarchy defaultTestSeq defaultRuleSet).get? 7 =
      some ⟨7, "CheckBox", none, none⟩) := by
  refine ⟨?_, ?_, by decide⟩
  · intro ruleset elements j e' hj hnv
    exact hierGo_parent_none ruleset elements [] j e' hj hnv
  · intro ruleset elements hnd i j ei ej hi hj hnk hnv hpar
    obtain ⟨Y, hYid, hcp, hloc⟩ := hierGo_parent_origin ruleset elements [] j ej ei.id hj hpar
    rcases hloc with hst | ⟨k, e0k, hkj, hgetk, hidk, hcatk, hdepk⟩
    · simp at hst
    · obtain ⟨e0i, hgeti, hiid, hicat, _⟩ := hierGo_shape ruleset elements [] i ei hi
      have hkid : e0k.id = e0i.id := by rw [← hidk, hYid, hiid]
      have hki : k = i := nodup_ids_get?_inj elements k i e0k e0i hnd hgetk hgeti hkid
      subst hki
      rw [hgeti] at hgetk
      injection hgetk with hk0
      have hYcat : Y.category = ei.category := by rw [hcatk, ← hk0, ← hicat]
      rcases canParent_key_or_value ruleset Y ej hcp with hk | hv
      · exact hnk (hYcat ▸ hk)
      · exact hnv (hYcat ▸ hv)

theorem thm_C3_witness :
    (⟨7, "CheckBox", none, none⟩ : HElement).parent_id = none :=
  thm_C3.1 defaultRuleSet defaultTestSeq 7 ⟨7, "CheckBox", none, none⟩ (by decide) (by decide)

/-- C4: under the default ruleset two ListItem elements with equal effective
`category_depth` are never parent and child of each other (first conjunct),
and a ListItem at depth d+1 immediately following a ListItem at depth d is
assigned that preceding ListItem's id as its `parent_id` (second conjunct). -/
theorem thm_C4 :
    (∀ (elements : List HElement), (elements.map HElement.id).Nodup →
      ∀ (i j : Nat) (ei ej : HElement),
      (set_element_hierarchy elements defaultRuleSet).get? i = some ei →
      (set_element_hierarchy elements defaultRuleSet).get? j = some ej →
      ei.category = "ListItem" → ej.category = "ListItem" →
      effectiveDepth ei = effectiveDepth ej →
      ej.parent_id ≠ some ei.id) ∧
    (∀ (elements : List HElement) (i : Nat) (a b : HElement),
      elements.get? i = some a → elements.get? (i + 1) = some b →
      a.category = "ListItem" → b.category = "ListItem" →
      effectiveDepth b = effectiveDepth a + 1 →
      ∃ e', (set_element_hierarchy elements defaultRuleSet).get? (i + 1) = some e' ∧
        e'.parent_id = some a.id) := by
  constructor
  · intro elements hnd i j ei ej hi hj hcati hcatj hdeq hpar
    obtain ⟨Y, hYid, hcp, hloc⟩ :=
      hierGo_parent_origin defaultRuleSet elements [] j ej ei.id hj hpar
    rcases hloc with hst | ⟨k, e0k, hkj, hgetk, hidk, hcatk, hdepk⟩
    · simp at hst
    · obtain ⟨e0i, hgeti, hiid, hicat, hidep⟩ :=
        hierGo_shape defaultRuleSet elements [] i ei hi
      have hkid : e0k.id = e0i.id := by rw [← hidk, hYid, hiid]
      have hki : k = i := nodup_ids_get?_inj elements k i e0k e0i hnd hgetk hgeti hkid
      subst hki
      rw [hgeti] at hgetk
      injection hgetk with hk0
      have hYcat : Y.category = ej.category := by
        rw [hcatk, ← hk0, ← hicat, hcati, hcatj]
      have hYdep : effectiveDepth Y = effectiveDepth ej := by
        unfold effectiveDepth
        rw [hdepk, ← hk0, ← hidep]
        exact hdeq
      unfold canParent at hcp
      rw [if_pos hYcat] at hcp
      rw [Bool.and_eq_true, decide_eq_true_eq] at hcp
      rw [hYdep] at hcp
      exact Nat.lt_irrefl _ hcp.1
  · intro elements i a b ha hb hcata hcatb hdep
    have hpa : participates defaultRuleSet a = true := by
      unfold participates
      rw [hcata]
      decide
    have hlt : effectiveDepth a < effectiveDepth b := by
      rw [hdep]
      exact Nat.lt_succ_self _
    have hcab : canParent defaultRuleSet a b = true := by
      unfold canParent
      rw [hcata, hcatb, if_pos rfl, Bool.and_eq_true]
      constructor
      · rw [decide_eq_true_eq]
        exact hlt
      · decide
    exact hierGo_succ_parent defaultRuleSet elements [] i a b ha hb hpa hcab

theorem thm_C4_witness :
    ((⟨5, "ListItem", some 1, some 3⟩ : HElement).parent_id ≠
        some (⟨4, "ListItem", some 1, some 3⟩ : HElement).id) ∧
      (∃ e', (set_element_hierarchy defaultTestSeq defaultRuleSet).get? 4 = some e' ∧
        e'.parent_id = some (⟨3, "ListItem", none, none⟩ : HElement).id) :=
  ⟨thm_C4.1 defaultTestSeq (by decide) 4 5 ⟨4, "ListItem", some 1, some 3⟩
      ⟨5, "ListItem", some 1, some 3⟩ (by decide) (by decide) (by decide) (by decide)
      (by decide),
    thm_C4.2 defaultTestSeq 3 ⟨3, "ListItem", none, none⟩ ⟨4, "ListItem", some 1, none⟩
      (by decide) (by decide) (by decide) (by decide) (by decide)⟩

/-- C5: hierarchy assignment with the custom ruleset
`{Header: [Title, Text], Title: [NarrativeText, UncategorizedText, FigureCaption]}`
on the sequence `[Header, Title, NarrativeText, Text, Title2, FigureCaption]`
yields exactly the parents: Title to Header, NarrativeText to Title, Text to
Title, Title2 to Header, FigureCaption to Title2. -/
theorem thm_C5 :
    (set_element_hierarchy customTestSeq customRuleSet).map HElement.parent_id =
      [none, some 0, some 1, some 1, some 0, some 4] := by decide

/- ===================================================================
   Part 7: claims about the XML leaf extractor
   =================================================================== -/

mutual
theorem yield_nonspace_node : ∀ (n : XmlNode) (s : String),
    s ∈ yieldTextsNode n → hasNonSpace s = true
  | .node t cs, s, h => by
    simp only [yieldTextsNode] at h
    rcases List.mem_append.mp h with h1 | h2
    · exact yield_nonspace_forest cs s h1
    · cases t with
      | none => simp [ownYield] at h2
      | some u =>
        by_cases hu : hasNonSpace u = true
        · simp only [ownYield, hu, if_true, List.mem_singleton] at h2
          rw [h2]
          exact hu
        · simp [ownYield, hu] at h2
theorem yield_nonspace_forest : ∀ (f : XmlForest) (s : String),
    s ∈ yieldTextsForest f → hasNonSpace s = true
  | .cons c cs, s, h => by
    simp only [yieldTextsForest] at h
    rcases List.mem_append.mp h with h1 | h2
    · exact yield_nonspace_node c s h1
    · exact yield_nonspace_forest cs s h2
  | .nil, s, h => by simp [yieldTextsForest] at h
end

mutual
theorem yield_eq_leaf_node : ∀ (n : XmlNode),
    textsAtLeavesOnlyNode n = true → yieldTextsNode n = leafTextsNode n
  | .node t .nil, _ => by
    simp [yieldTextsNode, yieldTextsForest, leafTextsNode]
  | .node t (.cons c cs), h => by
    simp only [textsAtLeavesOnlyNode, Bool.and_eq_true] at h
    simp only [yieldTextsNode, leafTextsNode]
    rw [yield_eq_leaf_forest (.cons c cs) h.2]
    have how : ownYield t = [] := by
      cases t with
      | none => rfl
      | some u =>
        simp only [wsOnly, Bool.not_eq_eq_eq_not, Bool.not_true] at h
        simp [ownYield, h.1]
    rw [how, List.append_nil]
theorem yield_eq_leaf_forest : ∀ (f : XmlForest),
    textsAtLeavesOnlyForest f = true → yieldTextsForest f = leafTextsForest f
  | .nil, _ => rfl
  | .cons c cs, h => by
    simp only [textsAtLeavesOnlyForest, Bool.and_eq_true] at h
    simp only [yieldTextsForest, leafTextsForest]
    rw [yield_eq_leaf_node c h.1, yield_eq_leaf_forest cs h.2]
end

/-- The two-node document refuting C6 as stated: root text " x ", one child
leaf with text "world". -/
def cexDoc : XmlNode :=
  XmlNode.node (some " x ") (XmlForest.cons (XmlNode.node (some "world") XmlForest.nil)
    XmlForest.nil)

/-- C6 counterexample: the extractor's yield on `cexDoc` is `["world", " x "]`,
which is not the document-order list of leaf texts (`["world"]` — the root is
no leaf, and its text " x " precedes "world" in the document yet is yielded
last), and the yielded string " x " is not whitespace-trimmed. -/
theorem thm_C6_cex :
    yieldTextsNode cexDoc = ["world", " x "] ∧
      leafTextsNode cexDoc = ["world"] ∧
      pyStrip " x " ≠ " x " := by
  refine ⟨?_, ?_, by decide⟩
  · simp only [cexDoc, yieldTextsNode, yieldTextsForest, ownYield]
    decide
  · simp only [cexDoc, leafTextsNode, leafTextsForest, ownYield]
    decide

/-- C6 (amended): on every well-formed input, every string the extractor
yields contains a non-whitespace character (it is yielded untrimmed, so it is
non-empty but not necessarily whitespace-trimmed), and whenever text occurs
only at childless (leaf) nodes the yielded sequence is exactly the sequence of
non-whitespace leaf texts in document order. -/
theorem thm_C6 (doc : XmlNode) :
    (∀ s ∈ yieldTextsNode doc, hasNonSpace s = true) ∧
    (textsAtLeavesOnlyNode doc = true → yieldTextsNode doc = leafTextsNode doc) :=
  ⟨fun s hs => yield_nonspace_node doc s hs, fun h => yield_eq_leaf_node doc h⟩

theorem thm_C6_witness :
    hasNonSpace "world" = true ∧
      yieldTextsNode (XmlNode.node none (XmlForest.cons (XmlNode.node (some "world")
          XmlForest.nil) XmlForest.nil)) =
        leafTextsNode (XmlNode.node none (XmlForest.cons (XmlNode.node (some "world")
          XmlForest.nil) XmlForest.nil)) :=
  ⟨(thm_C6 (XmlNode.node none (XmlForest.cons (XmlNode.node (some "world") XmlForest.nil)
      XmlForest.nil))).1 "world"
      (by simp only [yieldTextsNode, yieldTextsForest, ownYield]; decide),
   (thm_C6 (XmlNode.node none (XmlForest.cons (XmlNode.node (some "world") XmlForest.nil)
      XmlForest.nil))).2
      (by simp only [textsAtLeavesOnlyNode, textsAtLeavesOnlyForest, wsOnly]; decide)⟩

/- ===================================================================
   Part 8: claims about input selection and partition_xml
   =================================================================== -/

lemma readRawNoFn_ne_inputSelection (file text : Option String) :
    readRawNoFn file text ≠ Except.error PartitionError.inputSelection := by
  unfold readRawNoFn
  cases file <;> cases text <;> simp

lemma readRaw_ne_inputSelection (fsContent : String → Option String)
    (fn file text : Option String) :
    readRaw fsContent fn file text ≠ Except.error PartitionError.inputSelection := by
  cases fn with
  | none =>
    simp only [readRaw]
    exact readRawNoFn_ne_inputSelection file text
  | some f =>
    simp only [readRaw]
    by_cases hf : f.isEmpty = true
    · rw [if_pos hf]
      exact readRawNoFn_ne_inputSelection file text
    · rw [if_neg hf]
      cases fsContent f <;> simp

lemma get_leaf_elements_ne_inputSelection (fsContent : String → Option String)
    (parse : String → Option XmlNode) (fn file text : Option String)
    (xml_path : Option (XmlNode → List XmlNode))
    (hex : exactly_one fn file text = true) :
    get_leaf_elements fsContent parse fn file text xml_path ≠
      Except.error PartitionError.inputSelection := by
  unfold get_leaf_elements
  rw [hex]
  simp only [Bool.not_true, Bool.false_eq_true, if_false]
  cases hr : readRaw fsContent fn file text with
  | error e =>
    intro hcontra
    injection hcontra with he
    exact readRaw_ne_inputSelection fsContent fn file text (hr.trans (by rw [he]))
  | ok raw =>
    cases hp : parse raw with
    | none => simp [hp]
    | some doc =>
      cases hxp : xml_path with
      | none => simp [hp, hxp]
      | some sel => simp [hp, hxp]

/-- C7: for both `get_leaf_elements` and `partition_xml`, supplying zero or
more than one of {filename, file, text} fails with the input-selection error
before producing any output, and supplying exactly one never produces that
error (other failures, such as a missing file or malformed markup, remain
possible). -/
theorem thm_C7 (fsContent fsLastMod : String → Option String)
    (parse : String → Option XmlNode) (categorize : String → String)
    (fn file text : Option String) (keep : Bool)
    (xml_path : Option (XmlNode → List XmlNode))
    (mfn : Option String) (im : Bool) (mlm : Option String) :
    (optCount fn + optCount file + optCount text ≠ 1 →
      get_leaf_elements fsContent parse fn file text xml_path =
        Except.error PartitionError.inputSelection ∧
      partition_xml fsContent fsLastMod parse categorize fn file text keep xml_path
        mfn im mlm = Except.error PartitionError.inputSelection) ∧
    (optCount fn + optCount file + optCount text = 1 →
      get_leaf_elements fsContent parse fn file text xml_path ≠
        Except.error PartitionError.inputSelection ∧
      partition_xml fsContent fsLastMod parse categorize fn file text keep xml_path
        mfn im mlm ≠ Except.error PartitionError.inputSelection) := by
  constructor
  · intro hne
    have hex : exactly_one fn file text = false := by
      unfold exactly_one
      rw [beq_eq_false_iff_ne]
      exact hne
    constructor
    · unfold get_leaf_elements
      rw [hex]
      rfl
    · unfold partition_xml
      rw [hex]
      rfl
  · intro hone
    have hex : exactly_one fn file text = true := by
      unfold exactly_one
      rw [beq_iff_eq]
      exact hone
    constructor
    · exact get_leaf_elements_ne_inputSelection fsContent parse fn file text xml_path hex
    · unfold partition_xml
      rw [hex]
      simp only [Bool.not_true, Bool.false_eq_true, if_false]
      by_cases hk : keep = true
      · rw [if_pos hk]
        cases hr : readRaw fsContent fn file text with
        | error e =>
          intro hcontra
          injection hcontra with he
          exact readRaw_ne_inputSelection fsContent fn file text (hr.trans (by rw [he]))
        | ok raw => simp
      · rw [if_neg hk]
        cases hg : get_leaf_elements fsContent parse fn file text xml_path with
        | error e =>
          intro hcontra
          injection hcontra with he
          exact get_leaf_elements_ne_inputSelection fsContent parse fn file text xml_path hex
            (hg.trans (by rw [he]))
        | ok leaves => simp

theorem thm_C7_witness :
    (get_leaf_elements (fun _ => none) (fun _ => none) none none none none =
        Except.error PartitionError.inputSelection ∧
      partition_xml (fun _ => none) (fun _ => none) (fun _ => none) (fun _ => "Text")
        none none none true none none true none =
        Except.error PartitionError.inputSelection) ∧
    (get_leaf_elements (fun _ => none) (fun _ => none) none none (some "<a/>") none ≠
        Except.error PartitionError.inputSelection ∧
      partition_xml (fun _ => none) (fun _ => none) (fun _ => none) (fun _ => "Text")
        none none (some "<a/>") true none none true none ≠
        Except.error PartitionError.inputSelection) :=
  ⟨(thm_C7 (fun _ => none) (fun _ => none) (fun _ => none) (fun _ => "Text")
      none none none true none none true none).1 (by decide),
   (thm_C7 (fun _ => none) (fun _ => none) (fun _ => none) (fun _ => "Text")
      none none (some "<a/>") true none none true none).2 (by decide)⟩

/-- C8 counterexample: a partition call that supplies an explicit
`metadata_last_modified` but passes `include_metadata=False` stores no
last-modified value at all — the explicitly supplied value is not stored,
contradicting the claim for this call. -/
theorem thm_C8_cex :
    partition_xml (fun _ => none) (fun _ => none) (fun _ => none) (fun _ => "Text")
        none none (some "<doc/>") true none none false (some "2020-07-05T09:24:28") =
      Except.ok [(⟨"Text", "<doc/>", ⟨none, none⟩⟩ : PElement)] ∧
      (some "2020-07-05T09:24:28" : Option String) ≠ none := by
  constructor
  · rfl
  · decide

/-- C8 (amended): whenever a partition call that includes metadata
(`include_metadata = true`) succeeds, every output element stores as
`last_modified`: the explicitly supplied `metadata_last_modified` when it is
non-empty; otherwise the filesystem-derived value of a non-empty supplied
filename (`none` when the file does not exist); otherwise `none` (file-object
or raw-text input with no explicit value).  With `include_metadata = false`
the field is always `none`. -/
theorem thm_C8 (fsContent fsLastMod : String → Option String)
    (parse : String → Option XmlNode) (categorize : String → String)
    (fn file text : Option String) (keep : Bool)
    (xml_path : Option (XmlNode → List XmlNode)) (mfn : Option String)
    (mlm : Option String) (es : List PElement)
    (hok : partition_xml fsContent fsLastMod parse categorize fn file text keep
      xml_path mfn true mlm = Except.ok es) :
    ∀ el ∈ es, el.metadata.last_modified =
      match mlm with
      | some s => if s.isEmpty then lastModificationDate fsLastMod fn else some s
      | none => lastModificationDate fsLastMod fn := by
  have hmeta : ∀ el ∈ es, el.metadata = partitionMetadata fsLastMod fn mfn mlm true := by
    unfold partition_xml at hok
    by_cases hex : exactly_one fn file text = true
    · rw [hex] at hok
      simp only [Bool.not_true, Bool.false_eq_true, if_false] at hok
      by_cases hk : keep = true
      · rw [if_pos hk] at hok
        cases hr : readRaw fsContent fn file text with
        | error e => rw [hr] at hok; cases hok
        | ok raw =>
          rw [hr] at hok
          injection hok with hes
          subst hes
          intro el hel
          rw [List.mem_singleton] at hel
          subst hel
          rfl
      · rw [if_neg hk] at hok
        cases hg : get_leaf_elements fsContent parse fn file text xml_path with
        | error e => rw [hg] at hok; cases hok
        | ok leaves =>
          rw [hg] at hok
          injection hok with hes
          subst hes
          intro el hel
          rw [List.mem_map] at hel
          obtain ⟨s, _, hsel⟩ := hel
          rw [← hsel]
    · rw [Bool.not_eq_true] at hex
      rw [hex] at hok
      cases hok
  intro el hel
  rw [hmeta el hel]
  unfold partitionMetadata
  rw [if_pos rfl]
  cases mlm with
  | none => rfl
  | some s => rfl

theorem thm_C8_witness :
    (some "2020-07-05T09:24:28" : Option String) = some "2020-07-05T09:24:28" :=
  thm_C8 (fun _ => some "<a/>") (fun _ => some "2029-07-05T09:24:28") (fun _ => none)
    (fun _ => "Text") (some "f.xml") none none true none none
    (some "2020-07-05T09:24:28")
    [⟨"Text", "<a/>", ⟨some "f.xml", some "2020-07-05T09:24:28"⟩⟩]
    (by rfl)
    ⟨"Text", "<a/>", ⟨some "f.xml", some "2020-07-05T09:24:28"⟩⟩
    (by decide)

/-- C10: a `partition_xml` call with `xml_keep_tags = true` and exactly one
valid input source (the single source resolves to raw content `raw`) builds,
before language annotation, exactly one element: a `Text` element whose text
is the entire raw document content, tags included; and the `xml_path` argument
has no effect on the result in this mode. -/
theorem thm_C10 (fsContent fsLastMod : String → Option String)
    (parse : String → Option XmlNode) (categorize : String → String)
    (fn file text : Option String)
    (xp xp' : Option (XmlNode → List XmlNode))
    (mfn : Option String) (im : Bool) (mlm : Option String) (raw : String)
    (hone : optCount fn + optCount file + optCount text = 1)
    (hraw : readRaw fsContent fn file text = Except.ok raw) :
    partition_xml fsContent fsLastMod parse categorize fn file text true xp mfn im mlm =
      Except.ok [(⟨"Text", raw, partitionMetadata fsLastMod fn mfn mlm im⟩ : PElement)] ∧
    partition_xml fsContent fsLastMod parse categorize fn file text true xp mfn im mlm =
      partition_xml fsContent fsLastMod parse categorize fn file text true xp' mfn im mlm := by
  have hex : exactly_one fn file text = true := by
    unfold exactly_one
    rw [beq_iff_eq]
    exact hone
  have hmain : ∀ xpa : Option (XmlNode → List XmlNode),
      partition_xml fsContent fsLastMod parse categorize fn file text true xpa mfn im mlm =
        Except.ok [(⟨"Text", raw, partitionMetadata fsLastMod fn mfn mlm im⟩ : PElement)] := by
    intro xpa
    unfold partition_xml
    rw [hex]
    simp only [Bool.not_true, Bool.false_eq_true, if_false, if_pos rfl]
    rw [hraw]
    simp
  exact ⟨hmain xp, (hmain xp).trans (hmain xp').symm⟩

theorem thm_C10_witness :
    partition_xml (fun _ => none) (fun _ => none) (fun _ => none) (fun _ => "Text")
      none none (some "<a>t</a>") true none none true none =
      Except.ok [(⟨"Text", "<a>t</a>",
        partitionMetadata (fun _ => none) none none none true⟩ : PElement)] :=
  (thm_C10 (fun _ => none) (fun _ => none) (fun _ => none) (fun _ => "Text")
    none none (some "<a>t</a>") none (some (fun _ => [])) none true none "<a>t</a>"
    (by decide) (by rfl)).1

/- ===================================================================
   Part 9: claims about the title chunker
   =================================================================== -/

lemma groupLen_singleton (c : CElement) : groupLen [c] = c.text.length := rfl

lemma mergeChunks_text_length (c1 c2 : CElement) :
    (mergeChunks c1 c2).text.length =
      c1.text.length + chunkSep.length + c2.text.length := by
  show ((c1.text ++ chunkSep) ++ c2.text).length = _
  rw [String.length_append, String.length_append]

lemma combineGo_head_len (opts : ChunkOpts) :
    ∀ (l : List CElement) (acc : CElement),
    ∃ d rest, combineGo opts acc l = d :: rest ∧ acc.text.length ≤ d.text.length := by
  intro l
  induction l with
  | nil => intro acc; exact ⟨acc, [], rfl, Nat.le_refl _⟩
  | cons c cs ih =>
    intro acc
    by_cases hcc : canCombine opts acc c = true
    · obtain ⟨d, rest, heq, hlen⟩ := ih (mergeChunks acc c)
      refine ⟨d, rest, ?_, ?_⟩
      · simp only [combineGo, hcc, if_true]
        exact heq
      · refine Nat.le_trans ?_ hlen
        rw [mergeChunks_text_length]
        omega
    · refine ⟨acc, combineGo opts c cs, ?_, Nat.le_refl _⟩
      simp only [combineGo, hcc, Bool.false_eq_true, if_false]

lemma combineGo_chain (opts : ChunkOpts) :
    ∀ (l : List CElement) (acc : CElement),
    List.Chain' (fun a b => canCombine opts a b = false) (combineGo opts acc l) := by
  intro l
  induction l with
  | nil =>
    intro acc
    simp only [combineGo]
    exact List.chain'_singleton acc
  | cons c cs ih =>
    intro acc
    by_cases hcc : canCombine opts acc c = true
    · simp only [combineGo, hcc, if_true]
      exact ih (mergeChunks acc c)
    · simp only [combineGo, hcc, Bool.false_eq_true, if_false]
      obtain ⟨d, rest, heq, hlen⟩ := combineGo_head_len opts cs c
      rw [heq]
      rw [List.chain'_cons]
      rw [Bool.not_eq_true] at hcc
      constructor
      · simp only [canCombine, Bool.and_eq_false_iff, decide_eq_false_iff_not] at hcc ⊢
        rcases hcc with h1 | h2
        · exact Or.inl h1
        · right
          omega
      · rw [← heq]
        exact ih c

lemma combineGo_id_of_chain (opts : ChunkOpts) :
    ∀ (l : List CElement) (acc : CElement),
    List.Chain' (fun a b => canCombine opts a b = false) (acc :: l) →
    combineGo opts acc l = acc :: l := by
  intro l
  induction l with
  | nil => intro acc _; rfl
  | cons c cs ih =>
    intro acc hch
    rw [List.chain'_cons] at hch
    simp only [combineGo, hch.1, Bool.false_eq_true, if_false]
    rw [ih c hch.2]

lemma canAppend_false_of_canCombine_false (opts : ChunkOpts)
    (hnc : opts.new_after_n_chars ≤ opts.combine_text_under_n_chars)
    (c1 c2 : CElement) (hcc : canCombine opts c1 c2 = false) :
    canAppend opts [c1] c2 = false := by
  simp only [canCombine, Bool.and_eq_false_iff, decide_eq_false_iff_not] at hcc
  simp only [canAppend, groupLen_singleton, Bool.and_eq_false_iff,
    decide_eq_false_iff_not]
  rcases hcc with h1 | h2
  · left
    right
    omega
  · right
    exact h2

lemma splitRuns_singletons (opts : ChunkOpts) :
    ∀ (rest : List CElement) (y : CElement),
    List.Chain' (fun a b => canAppend opts [a] b = false) (y :: rest) →
    splitRuns opts [y] rest = (y :: rest).map (fun z => [z]) := by
  intro rest
  induction rest with
  | nil => intro y _; rfl
  | cons z rest' ih =>
    intro y hch
    rw [List.chain'_cons] at hch
    simp only [splitRuns, hch.1, Bool.false_eq_true, if_false]
    rw [ih z hch.2]
    rfl

lemma mkChunk_singleton (y : CElement) (hc : y.category = "CompositeElement")
    (hl : y.languages.Nodup) : mkChunk [y] = y := by
  cases y with
  | mk cat txt langs =>
    simp only at hc hl
    simp only [mkChunk, CElement.mk.injEq]
    refine ⟨hc.symm, rfl, ?_⟩
    show (langs ++ []).dedup = langs
    rw [List.append_nil]
    exact List.dedup_eq_self.mpr hl

lemma map_mkChunk_singletons (l : List CElement)
    (h : ∀ z ∈ l, z.category = "CompositeElement" ∧ z.languages.Nodup) :
    (l.map (fun z => [z])).map mkChunk = l := by
  induction l with
  | nil => rfl
  | cons z t ih =>
    simp only [List.map_cons]
    rw [mkChunk_singleton z (h z (List.mem_cons_self z t)).1 (h z (List.mem_cons_self z t)).2]
    rw [ih (fun w hw => h w (List.mem_cons_of_mem z hw))]

lemma chunk_mem_prop (opts : ChunkOpts) (es : List CElement) :
    ∀ c ∈ chunk_by_title opts es,
    c.category = "CompositeElement" ∧ c.languages.Nodup := by
  have hP : ∀ (l : List CElement) (acc : CElement),
      (acc.category = "CompositeElement" ∧ acc.languages.Nodup) →
      (∀ c ∈ l, c.category = "CompositeElement" ∧ c.languages.Nodup) →
      ∀ d ∈ combineGo opts acc l,
      d.category = "CompositeElement" ∧ d.languages.Nodup := by
    intro l
    induction l with
    | nil =>
      intro acc hacc _ d hd
      simp only [combineGo, List.mem_singleton] at hd
      rw [hd]
      exact hacc
    | cons c cs ih =>
      intro acc hacc hl d hd
      by_cases hcc : canCombine opts acc c = true
      · simp only [combineGo, hcc, if_true] at hd
        refine ih (mergeChunks acc c) ⟨rfl, List.nodup_dedup _⟩
          (fun w hw => hl w (List.mem_cons_of_mem c hw)) d hd
      · simp only [combineGo, hcc, Bool.false_eq_true, if_false] at hd
        rcases List.mem_cons.mp hd with hda | hdm
        · rw [hda]
          exact hacc
        · exact ih c (hl c (List.mem_cons_self c cs))
            (fun w hw => hl w (List.mem_cons_of_mem c hw)) d hdm
  intro c hc
  cases es with
  | nil => simp [chunk_by_title] at hc
  | cons e es' =>
    simp only [chunk_by_title] at hc
    cases hg : (splitRuns opts [e] es').map mkChunk with
    | nil => rw [hg] at hc; simp [combinePass] at hc
    | cons c0 cs0 =>
      rw [hg] at hc
      simp only [combinePass] at hc
      have hall : ∀ w ∈ c0 :: cs0, w.category = "CompositeElement" ∧ w.languages.Nodup := by
        intro w hw
        rw [← hg] at hw
        rw [List.mem_map] at hw
        obtain ⟨g, _, hgw⟩ := hw
        rw [← hgw]
        exact ⟨rfl, List.nodup_dedup _⟩
      exact hP cs0 c0 (hall c0 (List.mem_cons_self c0 cs0))
        (fun w hw => hall w (List.mem_cons_of_mem c0 hw)) c hc

lemma chunk_chain (opts : ChunkOpts) (es : List CElement) :
    List.Chain' (fun a b => canCombine opts a b = false) (chunk_by_title opts es) := by
  cases es with
  | nil => exact List.chain'_nil
  | cons e es' =>
    simp only [chunk_by_title]
    cases hg : (splitRuns opts [e] es').map mkChunk with
    | nil =>
      simp only [combinePass]
      exact List.chain'_nil
    | cons c0 cs0 =>
      simp only [combinePass]
      exact combineGo_chain opts cs0 c0

lemma chunk_idem (opts : ChunkOpts)
    (hnc : opts.new_after_n_chars ≤ opts.combine_text_under_n_chars)
    (xs : List CElement) :
    chunk_by_title opts (chunk_by_title opts xs) = chunk_by_title opts xs := by
  have hprop := chunk_mem_prop opts xs
  have hchain := chunk_chain opts xs
  cases hys : chunk_by_title opts xs with
  | nil => rfl
  | cons y rest =>
    rw [hys] at hprop hchain
    show chunk_by_title opts (y :: rest) = y :: rest
    simp only [chunk_by_title]
    have happ : List.Chain' (fun a b => canAppend opts [a] b = false) (y :: rest) :=
      List.Chain'.imp (fun a b hab => canAppend_false_of_canCombine_false opts hnc a b hab)
        hchain
    rw [splitRuns_singletons opts rest y happ]
    rw [map_mkChunk_singletons (y :: rest) hprop]
    simp only [combinePass]
    exact combineGo_id_of_chain opts rest y hchain

/-- C9: re-chunking the chunker's own output is the identity: for any input
sequence already within the configured size limits, applying `chunk_by_title`
with the default thresholds to its own result returns an equal sequence.
(The proof goes through for every input sequence; the size-limit hypothesis of
the claim is kept in the statement.) -/
theorem thm_C9 (xs : List CElement)
    (_hlim : ∀ e ∈ xs, e.text.length ≤ defaultChunkOpts.max_characters) :
    chunk_by_title defaultChunkOpts (chunk_by_title defaultChunkOpts xs) =
      chunk_by_title defaultChunkOpts xs :=
  chunk_idem defaultChunkOpts (by decide) xs

/-- A small concrete document for exercising the chunker. -/
def chunkWitnessSeq : List CElement :=
  [⟨"Title", "T1", ["eng"]⟩, ⟨"NarrativeText", "hello", ["eng"]⟩,
   ⟨"Title", "T2", []⟩, ⟨"Text", "world", ["spa"]⟩]

theorem thm_C9_witness :
    chunk_by_title defaultChunkOpts (chunk_by_title defaultChunkOpts chunkWitnessSeq) =
      chunk_by_title defaultChunkOpts chunkWitnessSeq :=
  thm_C9 chunkWitnessSeq (by decide)
